import Mathlib

/-!
Verification development for the MonoNote block editor.

Strings of the JavaScript source are modelled as lists of characters
(`Str`).  The block-document model of `editor.js`, the page store of
`storage.js` and the link resolver of `linking.js` are embedded as
executable Lean definitions, and the testable properties of the
specification are settled against them.
-/

namespace MonoNote

/-- A JavaScript string, modelled as its list of characters. -/
abbrev Str := List Char

/-- Shorthand turning a Lean string literal into the `Str` model. -/
def str (s : String) : Str := s.toList

/-- The whitespace predicate used by `String.prototype.trim` (restricted
to the ASCII whitespace characters that occur in the repository). -/
def isWs (c : Char) : Bool := c = ' ' || c = '\t' || c = '\n' || c = '\r'

/-- JavaScript `s.trim()`: remove leading and trailing whitespace. -/
def trimStr (s : Str) : Str :=
  ((s.dropWhile isWs).reverse.dropWhile isWs).reverse

/-- JavaScript `s.toLowerCase()` (ASCII letters). -/
def lowerStr (s : Str) : Str := s.map Char.toLower

/-- JavaScript `content.split('\n')` (editor.js line 74). -/
def splitNl : Str → List Str
  | [] => [[]]
  | c :: cs =>
    if c = '\n' then [] :: splitNl cs
    else
      match splitNl cs with
      | [] => [[c]]
      | g :: gs => (c :: g) :: gs

/-- JavaScript `blockLines.join('\n')` (editor.js line 84). -/
def joinNl : List Str → Str
  | [] => []
  | [l] => l
  | l :: ls => l ++ '\n' :: joinNl ls

/-- JavaScript `blocks.map(b => b.content).join('\n\n')`: the page
serialization of `save` (editor.js lines 526-528). -/
def serialize : List Str → Str
  | [] => []
  | [b] => b
  | b :: bs => b ++ '\n' :: '\n' :: serialize bs

/-- The line-grouping loop of `loadPage` (editor.js lines 77-90):
lines are accumulated in `blockLines`; whenever a line is empty or the
input ends, the accumulated group is joined, trimmed and pushed as one
block provided it is non-empty or the input ended. -/
def groupLines (blockLines : List Str) : List Str → List Str
  | [] => []
  | line :: rest =>
    if line = [] || rest.isEmpty then
      (if trimStr (joinNl (blockLines ++ [line])) ≠ [] || rest.isEmpty then
        [trimStr (joinNl (blockLines ++ [line]))]
       else []) ++
        groupLines [] rest
    else
      groupLines (blockLines ++ [line]) rest

/-- Deserialization of a page's content into blocks, as performed by
`loadPage` (editor.js lines 72-95), including the final
"ensure at least one block" fallback. -/
def deserialize (content : Str) : List Str :=
  let bs := groupLines [] (splitNl content)
  if bs.isEmpty then [[]] else bs

/-- "Contains no two consecutive newline characters." -/
def noDoubleNewline : Str → Bool
  | [] => true
  | [_] => true
  | a :: b :: rest => !(a == '\n' && b == '\n') && noDoubleNewline (b :: rest)

/-- Every block except possibly the last one is non-empty. -/
def nonFinalNonempty : List Str → Bool
  | [] => true
  | [_] => true
  | b :: bs => !b.isEmpty && nonFinalNonempty bs

/-! ## Editor state (editor.js)

The state consists of the `blocks` list, `currentBlockIndex`
(-1 meaning no block is being edited), the `selectedBlocks` set
(modelled as an insertion-ordered duplicate-free list, matching a
JavaScript `Set`), plus two observers of persistence: `writes` counts
calls to `save` (editor.js lines 517-534) and `pendingSave` records
whether a debounced save is currently scheduled. -/

structure EditorState where
  blocks : List Str
  currentBlockIndex : Int
  selectedBlocks : List Nat
  pendingSave : Bool
  writes : Nat
deriving DecidableEq

/-- `save` (editor.js lines 517-534): one synchronous persistence
write of the serialized blocks.  Only the write event is observed. -/
def save (st : EditorState) : EditorState :=
  { st with writes := st.writes + 1 }

/-- `debouncedSave` (editor.js lines 504-512): clears any pending
timeout and schedules a save 500ms later.  Here only the fact that a
debounced save is pending is observed; the timed behaviour is modelled
separately below for the debounce claim. -/
def debouncedSave (st : EditorState) : EditorState :=
  { st with pendingSave := true }

/-- The start position of `Array.prototype.splice(index, ...)`:
negative indices count from the end (clamped at 0), others are clamped
to the length. -/
def jsSpliceStart (len : Nat) (index : Int) : Nat :=
  if index < 0 then (index + len).toNat else min index.toNat len

/-- JavaScript `l.splice(index, 1)`: remove one element at the splice
start position. -/
def spliceRemove (l : List Str) (index : Int) : List Str :=
  let s := jsSpliceStart l.length index
  l.take s ++ l.drop (s + 1)

/-- JavaScript `l.splice(index, 0, x)`: insert `x` at the splice start
position. -/
def spliceInsert (l : List Str) (index : Int) (x : Str) : List Str :=
  let s := jsSpliceStart l.length index
  l.take s ++ x :: l.drop s

/-- `loadPage` (editor.js lines 66-109): reset the blocks to the
deserialized page content and clear the selection. -/
def loadPage (st : EditorState) (content : Str) : EditorState :=
  { st with blocks := deserialize content, selectedBlocks := [] }

/-- `finishEditing` (editor.js lines 401-436): if no block is being
edited, do nothing; otherwise leave edit mode and save immediately. -/
def finishEditing (st : EditorState) : EditorState :=
  if st.currentBlockIndex < 0 then st
  else save { st with currentBlockIndex := -1 }

/-- `editBlock` (editor.js lines 300-396): first finish any current
edit, then enter edit mode on `index` if it is in range. -/
def editBlock (st : EditorState) (index : Int) : EditorState :=
  let st1 := finishEditing st
  if index < 0 || (st1.blocks.length : Int) ≤ index then st1
  else { st1 with currentBlockIndex := index }

/-- `addBlock` (editor.js lines 443-447): splice a new block in at
`atIndex` and schedule a debounced save. -/
def addBlock (st : EditorState) (atIndex : Int) (content : Str) : EditorState :=
  debouncedSave { st with blocks := spliceInsert st.blocks atIndex content }

/-- `deleteBlock` (editor.js lines 453-464): with at most one block
present, clear the first block's content instead of deleting (and do
not save); otherwise splice the block out and schedule a debounced
save. -/
def deleteBlock (st : EditorState) (index : Int) : EditorState :=
  if st.blocks.length ≤ 1 then
    { st with blocks := st.blocks.set 0 [] }
  else
    debouncedSave { st with blocks := spliceRemove st.blocks index }

/-- `toggleBlockSelection` (editor.js lines 211-226): add or remove
`index` from the selected set.  A `Set` ignores a re-added member and
`delete` removes the member if present. -/
def toggleBlockSelection (st : EditorState) (index : Nat) (sel : Bool) :
    EditorState :=
  if sel then
    { st with selectedBlocks :=
        if index ∈ st.selectedBlocks then st.selectedBlocks
        else st.selectedBlocks ++ [index] }
  else
    { st with selectedBlocks := st.selectedBlocks.erase index }

/-- Descending insertion used to model `indices.sort((a, b) => b - a)`
(editor.js line 256). -/
def insertDesc (x : Nat) : List Nat → List Nat
  | [] => [x]
  | y :: ys => if y ≤ x then x :: y :: ys else y :: insertDesc x ys

/-- `Array.from(set).sort((a, b) => b - a)`: the selected indices in
descending order. -/
def sortDesc (l : List Nat) : List Nat := l.foldr insertDesc []

/-- The body of the `indices.forEach` loop of `deleteSelectedBlocks`
(editor.js lines 259-266): splice the block out unless it is the last
remaining one, in which case clear its content. -/
def deleteOneSelected (s : EditorState) (index : Nat) : EditorState :=
  if 1 < s.blocks.length then
    { s with blocks := spliceRemove s.blocks (index : Int) }
  else
    { s with blocks := s.blocks.set 0 [] }

/-- `deleteSelectedBlocks` (editor.js lines 252-275): delete the
selected blocks from the highest index down, clearing the last
remaining block instead of removing it, then clear the selection and
save immediately. -/
def deleteSelectedBlocks (st : EditorState) : EditorState :=
  if st.selectedBlocks.length = 0 then st
  else
    let indices := sortDesc st.selectedBlocks
    let st1 := indices.foldl deleteOneSelected st
    save { st1 with selectedBlocks := [] }

/-- `insertAtCursor` (editor.js lines 483-499): append `text` to the
block being edited (then finish and call `editBlock` on the — already
reset — current index, exactly as the source does), else append to the
last block, else create a fresh block; finally schedule a debounced
save. -/
def insertAtCursor (st : EditorState) (text : Str) : EditorState :=
  let st' :=
    if 0 ≤ st.currentBlockIndex then
      let i := st.currentBlockIndex.toNat
      let st1 := { st with blocks := st.blocks.set i (st.blocks.getD i [] ++ text) }
      let st2 := finishEditing st1
      editBlock st2 st2.currentBlockIndex
    else if 0 < st.blocks.length then
      let i := st.blocks.length - 1
      { st with blocks := st.blocks.set i (st.blocks.getD i [] ++ text) }
    else
      addBlock st 0 text
  debouncedSave st'

/-- The keys the editor's keydown handler distinguishes
(editor.js lines 334-378). -/
inductive Key where
  | enter (shift : Bool)
  | backspace
  | arrowUp
  | arrowDown
  | escape
  | other
deriving DecidableEq

/-- The keydown handler of the textarea for the block at `index`
(editor.js lines 334-378); `cursor` is `input.selectionStart` and the
textarea's value equals the block content. -/
def handleKey (st : EditorState) (index : Nat) (cursor : Nat) (k : Key) :
    EditorState :=
  let value := st.blocks.getD index []
  match k with
  | .enter shift =>
    if shift then st
    else if cursor = value.length then
      let st1 := finishEditing st
      let st2 := addBlock st1 ((index : Int) + 1) []
      editBlock st2 ((index : Int) + 1)
    else
      let st1 := { st with blocks := st.blocks.set index (value.take cursor) }
      let st2 := finishEditing st1
      let st3 := addBlock st2 ((index : Int) + 1) (value.drop cursor)
      editBlock st3 ((index : Int) + 1)
  | .backspace =>
    if value = [] && 0 < index then
      editBlock (deleteBlock st (index : Int)) ((index : Int) - 1)
    else st
  | .arrowUp =>
    if cursor = 0 && 0 < index then
      editBlock (finishEditing st) ((index : Int) - 1)
    else st
  | .arrowDown =>
    if cursor = value.length && index < st.blocks.length - 1 then
      editBlock (finishEditing st) ((index : Int) + 1)
    else st
  | .escape => finishEditing st
  | .other => st

/-- The textarea input handler (editor.js lines 327-331): live content
update plus a debounced save. -/
def inputEdit (st : EditorState) (index : Nat) (content : Str) : EditorState :=
  debouncedSave { st with blocks := st.blocks.set index content }

/-- The operations of the block document model, as invoked by the UI. -/
inductive Op where
  | edit (index : Int)
  | finish
  | key (index : Nat) (cursor : Nat) (k : Key)
  | input (index : Nat) (content : Str)
  | insert (atIndex : Int) (content : Str)
  | del (index : Int)
  | toggle (index : Nat) (sel : Bool)
  | deleteSel
  | insertCur (text : Str)

/-- Dispatch one operation. -/
def applyOp (st : EditorState) : Op → EditorState
  | .edit i => editBlock st i
  | .finish => finishEditing st
  | .key i c k => handleKey st i c k
  | .input i content => inputEdit st i content
  | .insert i c => addBlock st i c
  | .del i => deleteBlock st i
  | .toggle i s => toggleBlockSelection st i s
  | .deleteSel => deleteSelectedBlocks st
  | .insertCur t => insertAtCursor st t

/-- Apply a finite sequence of operations. -/
def applyOps (st : EditorState) (ops : List Op) : EditorState :=
  ops.foldl applyOp st

/-! ## The timed debounce model (editor.js lines 504-512)

The timed behaviour of `debouncedSave` and of the textarea input
handler (editor.js lines 327-331) that calls it. -/

/-- Timer and write state: `pending` is the fire deadline of
`saveTimeout` (if one is scheduled), `writesDone` counts persistence
writes performed so far. -/
structure Timeline where
  pending : Option Nat
  writesDone : Nat
deriving DecidableEq

/-- The timer fires when due: by time `t`, a timeout whose deadline is
`≤ t` has executed `save` (one write) and cleared itself. -/
def fireDue (tl : Timeline) (t : Nat) : Timeline :=
  match tl.pending with
  | some d =>
    if d ≤ t then { pending := none, writesDone := tl.writesDone + 1 }
    else tl
  | none => tl

/-- `debouncedSave` invoked at time `t`: `clearTimeout` of any pending
timeout, then `setTimeout(save, 500)`. -/
def debouncedSaveAt (tl : Timeline) (t : Nat) : Timeline :=
  { tl with pending := some (t + 500) }

/-- A content-edit keystroke at time `t`: any timer already due has
fired beforehand, then the input handler calls `debouncedSave`. -/
def keystrokeAt (tl : Timeline) (t : Nat) : Timeline :=
  debouncedSaveAt (fireDue tl t) t

/-- A run of content-edit keystrokes at the given times. -/
def runKeystrokes (tl : Timeline) (ts : List Nat) : Timeline :=
  ts.foldl keystrokeAt tl

/-! ## Pages, link resolution and backlinks (linking.js, storage.js) -/

/-- A stored page, with the fields the link resolver and backlink scan
use. -/
structure Page where
  id : Str
  title : Str
  content : Str
deriving DecidableEq

/-- `findPageByTitle` (linking.js lines 31-38): the first stored page
whose lower-cased, trimmed title equals the lower-cased, trimmed query;
`Object.values(pages)` is modelled by the store's list order. -/
def findPageByTitle (pages : List Page) (title : Str) : Option Page :=
  pages.find? (fun page =>
    trimStr (lowerStr page.title) == trimStr (lowerStr title))

/-- Case-insensitive literal match of `pat` at position `j` of
`content` (the title is regex-escaped in the source, so the pattern is
literal; the 'i' flag lowers both sides). -/
def matchesAt (content pat : Str) (j : Nat) : Bool :=
  (lowerStr pat).isPrefixOf (lowerStr (content.drop j))

/-- Position of the first match of `pat` in `content` at or after
`start`, if any. -/
def firstMatchFrom (content pat : Str) (start : Nat) : Option Nat :=
  (List.range (content.length + 1)).find? (fun j =>
    decide (start ≤ j) && matchesAt content pat j)

/-- JavaScript `RegExp.prototype.test` on a regex with the 'g' flag:
the search starts at the regex's `lastIndex`; on a match the test is
true and `lastIndex` moves past the match, on a miss the test is false
and `lastIndex` resets to 0.  The regex object of `getBacklinks` is
shared across the whole filter, so `lastIndex` threads through it. -/
def regexTest (pat content : Str) (lastIndex : Nat) : Bool × Nat :=
  match firstMatchFrom content pat lastIndex with
  | some j => (true, j + pat.length)
  | none => (false, 0)

/-- One step of the `filter` of `getBacklinks` (storage.js lines
106-108): `page.id !== pageId && linkPattern.test(page.content)` with
the test's `lastIndex` threaded through the accumulator. -/
def backlinkStep (pageId pat : Str) (acc : List Page × Nat) (page : Page) :
    List Page × Nat :=
  if page.id ≠ pageId then
    let r := regexTest pat page.content acc.2
    (if r.1 then acc.1 ++ [page] else acc.1, r.2)
  else acc

/-- `getBacklinks` (storage.js lines 99-109): empty if the target page
id is unknown, otherwise the pages other than the target whose content
matches `[[` title `]]` case-insensitively (with the stateful shared
regex). -/
def getBacklinks (pages : List Page) (pageId : Str) : List Page :=
  match pages.find? (fun p => p.id == pageId) with
  | none => []
  | some target =>
    let pat := str "[[" ++ target.title ++ str "]]"
    (pages.foldl (backlinkStep pageId pat) ([], 0)).1

/-! ## Length lemmas for the never-empty invariant -/

theorem length_spliceInsert (l : List Str) (i : Int) (x : Str) :
    (spliceInsert l i x).length = l.length + 1 := by
  simp [spliceInsert]
  omega

theorem length_spliceRemove_ge (l : List Str) (i : Int) :
    l.length - 1 ≤ (spliceRemove l i).length := by
  simp [spliceRemove]
  omega

theorem blocks_finishEditing (st : EditorState) :
    (finishEditing st).blocks = st.blocks := by
  unfold finishEditing save
  split <;> rfl

theorem blocks_editBlock (st : EditorState) (i : Int) :
    (editBlock st i).blocks = st.blocks := by
  simp only [editBlock]
  split <;> simp [blocks_finishEditing]

theorem length_blocks_addBlock (st : EditorState) (i : Int) (c : Str) :
    (addBlock st i c).blocks.length = st.blocks.length + 1 := by
  simp [addBlock, debouncedSave, length_spliceInsert]

theorem one_le_blocks_deleteBlock (st : EditorState) (i : Int)
    (h : 1 ≤ st.blocks.length) : 1 ≤ (deleteBlock st i).blocks.length := by
  unfold deleteBlock debouncedSave
  split
  · simpa using h
  · have := length_spliceRemove_ge st.blocks i
    simp only
    omega

theorem one_le_blocks_foldDelete (indices : List Nat) (st : EditorState)
    (h : 1 ≤ st.blocks.length) :
    1 ≤ (indices.foldl deleteOneSelected st).blocks.length := by
  induction indices generalizing st with
  | nil => exact h
  | cons i is ih =>
    simp only [List.foldl_cons]
    refine ih _ ?_
    unfold deleteOneSelected
    split
    · have := length_spliceRemove_ge st.blocks (i : Int)
      simp only
      omega
    · simpa using h

theorem one_le_blocks_deleteSelected (st : EditorState)
    (h : 1 ≤ st.blocks.length) :
    1 ≤ (deleteSelectedBlocks st).blocks.length := by
  simp only [deleteSelectedBlocks]
  split
  · exact h
  · simp only [save]
    exact one_le_blocks_foldDelete _ _ h

theorem one_le_blocks_applyOp (st : EditorState) (op : Op)
    (h : 1 ≤ st.blocks.length) : 1 ≤ (applyOp st op).blocks.length := by
  cases op with
  | edit i => rw [applyOp, blocks_editBlock]; exact h
  | finish => rw [applyOp, blocks_finishEditing]; exact h
  | key i c k =>
    cases k with
    | enter shift =>
      simp only [applyOp, handleKey]
      split
      · exact h
      · split
        · rw [blocks_editBlock, length_blocks_addBlock]
          omega
        · rw [blocks_editBlock, length_blocks_addBlock]
          omega
    | backspace =>
      simp only [applyOp, handleKey]
      split
      · rw [blocks_editBlock]
        exact one_le_blocks_deleteBlock st _ h
      · exact h
    | arrowUp =>
      simp only [applyOp, handleKey]
      split
      · rw [blocks_editBlock, blocks_finishEditing]; exact h
      · exact h
    | arrowDown =>
      simp only [applyOp, handleKey]
      split
      · rw [blocks_editBlock, blocks_finishEditing]; exact h
      · exact h
    | escape =>
      simp only [applyOp, handleKey]
      rw [blocks_finishEditing]; exact h
    | other => exact h
  | input i content => simpa [applyOp, inputEdit, debouncedSave] using h
  | insert i c =>
    show 1 ≤ (addBlock st i c).blocks.length
    rw [length_blocks_addBlock]
    omega
  | del i => exact one_le_blocks_deleteBlock st i h
  | toggle i s =>
    simp only [applyOp, toggleBlockSelection]
    split <;> simpa using h
  | deleteSel => exact one_le_blocks_deleteSelected st h
  | insertCur t =>
    simp only [applyOp, insertAtCursor, debouncedSave]
    split
    · rw [blocks_editBlock, blocks_finishEditing]
      simpa using h
    · split
      · simpa using h
      · rw [length_blocks_addBlock]
        omega

theorem one_le_blocks_deserialize (content : Str) :
    1 ≤ (deserialize content).length := by
  simp only [deserialize]
  split
  · simp
  · rename_i hne
    simp only [List.isEmpty_iff] at hne
    exact List.length_pos.mpr hne

theorem one_le_blocks_applyOps (ops : List Op) (st : EditorState)
    (h : 1 ≤ st.blocks.length) : 1 ≤ (applyOps st ops).blocks.length := by
  induction ops generalizing st with
  | nil => exact h
  | cons op ops ih => exact ih _ (one_le_blocks_applyOp st op h)

/-- Claim C1: after a document is created by deserializing a page's
content, every finite sequence of the model's operations preserves the
invariant that the block sequence has length at least 1. -/
theorem blocks_never_empty (st : EditorState) (content : Str) (ops : List Op) :
    1 ≤ (applyOps (loadPage st content) ops).blocks.length :=
  one_le_blocks_applyOps ops _ (one_le_blocks_deserialize content)

/-! ## Concrete editing-protocol claims -/

/-- Claim C5: editing a block with content "hello world" with the
cursor at position 5, Enter without shift replaces it by the two blocks
"hello" and " world" and moves edit focus to the second of the two. -/
theorem enter_splits_hello_world :
    (handleKey
        { blocks := [str "hello world"], currentBlockIndex := 0,
          selectedBlocks := [], pendingSave := false, writes := 0 }
        0 5 (.enter false)).blocks = [str "hello", str " world"]
    ∧ (handleKey
        { blocks := [str "hello world"], currentBlockIndex := 0,
          selectedBlocks := [], pendingSave := false, writes := 0 }
        0 5 (.enter false)).currentBlockIndex = 1 := by
  constructor <;> decide

/-- Claim C6: with blocks ["a","b","c","d"] and selection {1,3},
DeleteSelected yields blocks ["a","c"] and an empty selection. -/
theorem delete_selected_1_3 :
    (deleteSelectedBlocks
        { blocks := [str "a", str "b", str "c", str "d"],
          currentBlockIndex := -1, selectedBlocks := [1, 3],
          pendingSave := false, writes := 0 }).blocks = [str "a", str "c"]
    ∧ (deleteSelectedBlocks
        { blocks := [str "a", str "b", str "c", str "d"],
          currentBlockIndex := -1, selectedBlocks := [1, 3],
          pendingSave := false, writes := 0 }).selectedBlocks = [] := by
  constructor <;> decide

/-- Claim C3, behaviour of the code at the failing input: with block 0
("hello") being edited, `insertAtCursor " world"` appends the text and
commits the edit, but `editBlock` is called with the already-reset
current index (-1), so edit mode is NOT re-opened afterwards. -/
theorem insert_at_cursor_drops_edit_mode :
    (insertAtCursor
        { blocks := [str "hello"], currentBlockIndex := 0,
          selectedBlocks := [], pendingSave := false, writes := 0 }
        (str " world")).blocks = [str "hello world"]
    ∧ (insertAtCursor
        { blocks := [str "hello"], currentBlockIndex := 0,
          selectedBlocks := [], pendingSave := false, writes := 0 }
        (str " world")).writes = 1
    ∧ (insertAtCursor
        { blocks := [str "hello"], currentBlockIndex := 0,
          selectedBlocks := [], pendingSave := false, writes := 0 }
        (str " world")).currentBlockIndex = -1 := by
  refine ⟨?_, ?_, ?_⟩ <;> decide

/-! ## Out-of-range indices (claim C4) -/

theorem spliceRemove_of_length_le (l : List Str) (i : Int)
    (h : (l.length : Int) ≤ i) : spliceRemove l i = l := by
  have h0 : ¬ i < 0 := by omega
  have hs : jsSpliceStart l.length i = l.length := by
    simp only [jsSpliceStart, h0, if_false]
    omega
  simp [spliceRemove, hs]

/-- Claim C4 as stated is false: with blocks ["a","b"] (and nothing
being edited), the out-of-range index -1 makes DeleteBlock remove the
final block, because `splice(-1, 1)` counts from the end. -/
theorem delete_block_negative_index_not_noop :
    ((-1 : Int) < 0 ∨ ((2 : Nat) : Int) ≤ -1)
    ∧ (deleteBlock
        { blocks := [str "a", str "b"], currentBlockIndex := -1,
          selectedBlocks := [], pendingSave := false, writes := 0 }
        (-1)).blocks = [str "a"] := by
  constructor
  · left; decide
  · decide

/-- Claim C4 (amended): for an index outside [0, len(blocks)),
EditBlock never changes the block sequence, and is a complete no-op
when no block is being edited (otherwise it merely commits the edit in
progress); DeleteBlock at an index ≥ len(blocks) leaves the state
unchanged apart from scheduling a debounced save, provided at least two
blocks are present (with a single block it clears that block's content,
and a negative index deletes counting from the end). -/
theorem out_of_range_index_noop (st : EditorState) (i : Int)
    (hoob : i < 0 ∨ (st.blocks.length : Int) ≤ i) :
    (editBlock st i).blocks = st.blocks
    ∧ (st.currentBlockIndex < 0 → editBlock st i = st)
    ∧ ((st.blocks.length : Int) ≤ i → 2 ≤ st.blocks.length →
        deleteBlock st i = debouncedSave st) := by
  refine ⟨blocks_editBlock st i, ?_, ?_⟩
  · intro hcur
    have hfin : finishEditing st = st := by
      unfold finishEditing
      simp [hcur]
    simp only [editBlock, hfin]
    have : (decide (i < 0) || decide ((st.blocks.length : Int) ≤ i)) = true := by
      rcases hoob with h | h <;> simp [h]
    simp [this]
  · intro hge hlen
    have hnot : ¬ st.blocks.length ≤ 1 := by omega
    simp only [deleteBlock, hnot, if_false,
      spliceRemove_of_length_le st.blocks i hge]

/-- Witness for the amended claim C4 at blocks ["a","b"], index 5. -/
theorem out_of_range_index_noop_witness :
    (editBlock
        { blocks := [str "a", str "b"], currentBlockIndex := -1,
          selectedBlocks := [], pendingSave := false, writes := 0 } 5)
      = { blocks := [str "a", str "b"], currentBlockIndex := -1,
          selectedBlocks := [], pendingSave := false, writes := 0 }
    ∧ (deleteBlock
        { blocks := [str "a", str "b"], currentBlockIndex := -1,
          selectedBlocks := [], pendingSave := false, writes := 0 } 5)
      = debouncedSave
        { blocks := [str "a", str "b"], currentBlockIndex := -1,
          selectedBlocks := [], pendingSave := false, writes := 0 } := by
  have h := out_of_range_index_noop
    { blocks := [str "a", str "b"], currentBlockIndex := -1,
      selectedBlocks := [], pendingSave := false, writes := 0 } 5
    (by right; decide)
  exact ⟨h.2.1 (by decide), h.2.2 (by decide) (by decide)⟩

/-! ## Selection toggling (claim C8) -/

/-- Claim C8: `ToggleSelection(i, s)` changes only the selected set —
the block sequence and the edit index are untouched and no persistence
write, immediate or debounced, is triggered; on a duplicate-free
selection it puts `i` in the set exactly when `s` is true. -/
theorem selected_toggleBlockSelection (st : EditorState) (i : Nat) (s : Bool) :
    (toggleBlockSelection st i s).selectedBlocks =
      if s then
        (if i ∈ st.selectedBlocks then st.selectedBlocks
         else st.selectedBlocks ++ [i])
      else st.selectedBlocks.erase i := by
  unfold toggleBlockSelection
  split <;> rfl

theorem toggle_selection_frame (st : EditorState) (i : Nat) (s : Bool) :
    (toggleBlockSelection st i s).blocks = st.blocks
    ∧ (toggleBlockSelection st i s).currentBlockIndex = st.currentBlockIndex
    ∧ (toggleBlockSelection st i s).writes = st.writes
    ∧ (toggleBlockSelection st i s).pendingSave = st.pendingSave
    ∧ (st.selectedBlocks.Nodup →
        (i ∈ (toggleBlockSelection st i s).selectedBlocks ↔ s = true)) := by
  refine ⟨?_, ?_, ?_, ?_, fun hnd => ?_⟩
  · unfold toggleBlockSelection; split <;> rfl
  · unfold toggleBlockSelection; split <;> rfl
  · unfold toggleBlockSelection; split <;> rfl
  · unfold toggleBlockSelection; split <;> rfl
  · rw [selected_toggleBlockSelection]
    cases s with
    | false =>
      simp only [Bool.false_eq_true, if_false, iff_false]
      intro hmem
      exact absurd (hnd.mem_erase_iff.mp hmem).1 (by simp)
    | true =>
      simp only [if_true]
      by_cases hmem : i ∈ st.selectedBlocks
      · simp [hmem]
      · simp [hmem]

/-- Witness for claim C8 at a concrete state with selection [0]. -/
theorem toggle_selection_frame_witness :
    (toggleBlockSelection
        { blocks := [str "a"], currentBlockIndex := -1,
          selectedBlocks := [0], pendingSave := false, writes := 0 }
        2 true).blocks = [str "a"]
    ∧ (2 ∈ (toggleBlockSelection
        { blocks := [str "a"], currentBlockIndex := -1,
          selectedBlocks := [0], pendingSave := false, writes := 0 }
        2 true).selectedBlocks ↔ true = true) := by
  have h := toggle_selection_frame
    { blocks := [str "a"], currentBlockIndex := -1,
      selectedBlocks := [0], pendingSave := false, writes := 0 } 2 true
  exact ⟨h.1, h.2.2.2.2 (by decide)⟩

/-! ## Debounced persistence timing (claim C7) -/

theorem runKeystrokes_gap (ts : List Nat) (prev : Nat) (tl : Timeline)
    (hp : tl.pending = some (prev + 500))
    (hchain : List.Chain (fun a b => a ≤ b ∧ b < a + 500) prev ts) :
    (runKeystrokes tl ts).writesDone = tl.writesDone
    ∧ (runKeystrokes tl ts).pending = some (ts.getLastD prev + 500) := by
  induction ts generalizing prev tl with
  | nil => exact ⟨rfl, by simpa using hp⟩
  | cons t ts ih =>
    cases hchain with
    | cons hrel hchain' =>
      have hstep : keystrokeAt tl t =
          { tl with pending := some (t + 500) } := by
        unfold keystrokeAt debouncedSaveAt fireDue
        rw [hp]
        have : ¬ prev + 500 ≤ t := by omega
        simp [this]
      have := ih t { tl with pending := some (t + 500) } rfl hchain'
      simp only [runKeystrokes, List.foldl_cons, hstep, List.getLastD_cons]
      exact this

/-- Claim C7: starting with no timer pending, a run of N ≥ 1
content-edit keystrokes, each within 500ms of the previous one,
performs no write during the run and leaves exactly one save scheduled
500ms after the last keystroke; when that timer fires, exactly one
write is performed.  Each keystroke replaces (cancels) the previously
scheduled write with one 500ms after itself. -/
theorem debounce_coalescing (t0 : Nat) (ts : List Nat) (tl : Timeline)
    (h0 : tl.pending = none)
    (hchain : List.Chain (fun a b => a ≤ b ∧ b < a + 500) t0 ts) :
    (runKeystrokes tl (t0 :: ts)).writesDone = tl.writesDone
    ∧ (runKeystrokes tl (t0 :: ts)).pending = some (ts.getLastD t0 + 500)
    ∧ (fireDue (runKeystrokes tl (t0 :: ts)) (ts.getLastD t0 + 500)).writesDone
        = tl.writesDone + 1
    ∧ (fireDue (runKeystrokes tl (t0 :: ts)) (ts.getLastD t0 + 500)).pending
        = none
    ∧ ∀ (tl' : Timeline) (t : Nat),
        (keystrokeAt tl' t).pending = some (t + 500) := by
  have hstep : keystrokeAt tl t0 = { tl with pending := some (t0 + 500) } := by
    unfold keystrokeAt debouncedSaveAt fireDue
    rw [h0]
  have hrun : runKeystrokes tl (t0 :: ts) =
      runKeystrokes { tl with pending := some (t0 + 500) } ts := by
    simp [runKeystrokes, hstep]
  have hmain := runKeystrokes_gap ts t0
    { tl with pending := some (t0 + 500) } rfl hchain
  rw [hrun]
  refine ⟨hmain.1, hmain.2, ?_, ?_, fun tl' t => rfl⟩
  · unfold fireDue
    rw [hmain.2]
    simp [hmain.1]
  · unfold fireDue
    rw [hmain.2]
    simp

/-- Witness for claim C7: keystrokes at times 0, 100 and 300 schedule
a single write for time 800 and fire exactly once. -/
theorem debounce_coalescing_witness :
    (runKeystrokes ⟨none, 0⟩ [0, 100, 300]).writesDone = 0
    ∧ (runKeystrokes ⟨none, 0⟩ [0, 100, 300]).pending = some 800
    ∧ (fireDue (runKeystrokes ⟨none, 0⟩ [0, 100, 300]) 800).writesDone = 1 := by
  have h := debounce_coalescing 0 [100, 300] ⟨none, 0⟩ rfl
    (List.Chain.cons (by omega) (List.Chain.cons (by omega) List.Chain.nil))
  exact ⟨h.1, h.2.1, h.2.2.1⟩

/-! ## Pages, link resolution and backlinks (linking.js, storage.js) -/

/-- Claim C9 as stated is false: a stored page titled " foo" is
returned for the query "foo" (the code trims both titles), although no
stored title equals "foo" under case-insensitive comparison alone. -/
theorem find_page_counterexample :
    (findPageByTitle [⟨str "1", str " foo", str ""⟩] (str "foo")).isSome
      = true
    ∧ ¬ ∃ p ∈ [(⟨str "1", str " foo", str ""⟩ : Page)],
        lowerStr p.title = lowerStr (str "foo") := by
  constructor
  · decide
  · decide

/-- Claim C9 (amended): `findPageByTitle` returns a page if and only
if some stored page's title equals the query title under
case-insensitive comparison after trimming leading and trailing
whitespace from both; otherwise it returns null. -/
theorem find_page_by_title_iff (pages : List Page) (t : Str) :
    (findPageByTitle pages t).isSome = true ↔
      ∃ p ∈ pages, trimStr (lowerStr p.title) = trimStr (lowerStr t) := by
  simp [findPageByTitle, List.find?_isSome]

theorem backlinks_fold_mem (pages : List Page) (pid pat : Str)
    (acc : List Page × Nat) (h : ∀ p ∈ acc.1, p.id ≠ pid) :
    ∀ p ∈ (pages.foldl (backlinkStep pid pat) acc).1, p.id ≠ pid := by
  induction pages generalizing acc with
  | nil => exact h
  | cons page pages ih =>
    simp only [List.foldl_cons]
    refine ih _ ?_
    simp only [backlinkStep]
    split
    · rename_i hne
      split
      · intro p hp
        rcases List.mem_append.mp hp with hl | hr
        · exact h p hl
        · simpa [List.mem_singleton.mp hr] using hne
      · exact h
    · exact h

/-- Claim C10: `getBacklinks(pageId)` returns the empty list when no
stored page has that id, and its result never includes the page with
id `pageId` itself, regardless of whether that page links to its own
title. -/
theorem backlinks_exclude_self (pages : List Page) (pid : Str) :
    ((∀ p ∈ pages, p.id ≠ pid) → getBacklinks pages pid = [])
    ∧ ∀ p ∈ getBacklinks pages pid, p.id ≠ pid := by
  constructor
  · intro hnone
    have hfind : pages.find? (fun p => p.id == pid) = none := by
      rw [List.find?_eq_none]
      intro p hp
      simpa using hnone p hp
    simp [getBacklinks, hfind]
  · intro p hp
    unfold getBacklinks at hp
    rcases hfound : pages.find? (fun q => q.id == pid) with _ | target
    · rw [hfound] at hp
      simp at hp
    · rw [hfound] at hp
      exact backlinks_fold_mem pages pid _ ([], 0) (by simp) p hp

/-- Witness for claim C10: an unknown id yields no backlinks, and a
page whose content links to its own title is excluded from its own
backlinks. -/
theorem backlinks_exclude_self_witness :
    getBacklinks [⟨str "1", str "Home", str "see [[Home]]"⟩] (str "2") = []
    ∧ ∀ p ∈ getBacklinks [⟨str "1", str "Home", str "see [[Home]]"⟩]
        (str "1"), p.id ≠ str "1" :=
  ⟨(backlinks_exclude_self _ _).1 (by decide),
   (backlinks_exclude_self _ _).2⟩

/-! ## The serialize/deserialize round trip (claim C2) -/

theorem splitNl_ne_nil (s : Str) : splitNl s ≠ [] := by
  induction s with
  | nil => simp [splitNl]
  | cons c cs ih =>
    simp only [splitNl]
    split
    · simp
    · split
      · rename_i h
        exact absurd h ih
      · simp

theorem splitNl_newline_cons (cs : Str) :
    splitNl ('\n' :: cs) = [] :: splitNl cs := by
  simp [splitNl]

theorem splitNl_cons_of_ne (c : Char) (cs : Str) (hc : c ≠ '\n')
    (g : Str) (gs : List Str) (hsp : splitNl cs = g :: gs) :
    splitNl (c :: cs) = (c :: g) :: gs := by
  simp [splitNl, hc, hsp]

theorem joinNl_cons (l : Str) (ls : List Str) (h : ls ≠ []) :
    joinNl (l :: ls) = l ++ '\n' :: joinNl ls := by
  cases ls with
  | nil => exact absurd rfl h
  | cons a as => rfl

theorem joinNl_splitNl (s : Str) : joinNl (splitNl s) = s := by
  induction s with
  | nil => rfl
  | cons c cs ih =>
    by_cases hc : c = '\n'
    · subst hc
      rw [splitNl_newline_cons, joinNl_cons _ _ (splitNl_ne_nil cs)]
      simp [ih]
    · cases hsp : splitNl cs with
      | nil => exact absurd hsp (splitNl_ne_nil cs)
      | cons g gs =>
        rw [splitNl_cons_of_ne c cs hc g gs hsp]
        rw [hsp] at ih
        cases gs with
        | nil =>
          have hg : cs = g := by simpa [joinNl] using ih.symm
          simp [joinNl, hg]
        | cons a as =>
          rw [joinNl_cons _ _ (by simp)]
          rw [joinNl_cons _ _ (by simp)] at ih
          simp only [List.cons_append]
          rw [ih]

theorem splitNl_append (x y : Str) :
    splitNl (x ++ '\n' :: y) = splitNl x ++ splitNl y := by
  induction x with
  | nil => simp [splitNl]
  | cons c cs ih =>
    by_cases hc : c = '\n'
    · subst hc
      simp only [List.cons_append, splitNl_newline_cons, ih]
    · cases hsp : splitNl cs with
      | nil => exact absurd hsp (splitNl_ne_nil cs)
      | cons g gs =>
        have h2 : splitNl (cs ++ '\n' :: y) = g :: (gs ++ splitNl y) := by
          rw [ih, hsp]
          rfl
        rw [List.cons_append,
          splitNl_cons_of_ne c _ hc g (gs ++ splitNl y) h2,
          splitNl_cons_of_ne c cs hc g gs hsp]
        rfl

theorem joinNl_append_last (ls : List Str) (y : Str) (h : ls ≠ []) :
    joinNl (ls ++ [y]) = joinNl ls ++ '\n' :: y := by
  induction ls with
  | nil => exact absurd rfl h
  | cons l ls ih =>
    cases ls with
    | nil => simp [joinNl]
    | cons a as =>
      rw [List.cons_append, joinNl_cons _ _ (by simp),
        joinNl_cons _ _ (by simp), ih (by simp)]
      simp

theorem dropWhile_eq_self_head (p : Char → Bool) (l : Str)
    (h : l.dropWhile p = l) (c : Char) (hc : l.head? = some c) :
    p c = false := by
  cases l with
  | nil => simp at hc
  | cons a as =>
    have hac : a = c := by simpa using hc
    subst hac
    by_contra hp
    have hp' : p a = true := by simpa using hp
    rw [List.dropWhile_cons_of_pos hp'] at h
    have hlen : (List.dropWhile p as).length ≤ as.length :=
      List.Sublist.length_le (List.dropWhile_sublist p)
    rw [h] at hlen
    simp at hlen

theorem dropWhile_eq_self_of_head (p : Char → Bool) (l : Str)
    (h : ∀ c, l.head? = some c → p c = false) : l.dropWhile p = l := by
  cases l with
  | nil => rfl
  | cons a as => exact List.dropWhile_cons_of_neg (by simp [h a rfl])

theorem trimStr_dropWhile_left (s : Str) (hts : trimStr s = s) :
    s.dropWhile isWs = s := by
  refine List.Sublist.eq_of_length_le (List.dropWhile_sublist isWs) ?_
  have h1 : (trimStr s).length ≤ (s.dropWhile isWs).length := by
    unfold trimStr
    rw [List.length_reverse]
    calc ((s.dropWhile isWs).reverse.dropWhile isWs).length
        ≤ (s.dropWhile isWs).reverse.length :=
          List.Sublist.length_le (List.dropWhile_sublist isWs)
      _ = (s.dropWhile isWs).length := List.length_reverse _
  rw [hts] at h1
  exact h1

theorem trimStr_dropWhile_right (s : Str) (hts : trimStr s = s) :
    s.reverse.dropWhile isWs = s.reverse := by
  have h := trimStr_dropWhile_left s hts
  have h2 : (s.reverse.dropWhile isWs).reverse = s := by
    unfold trimStr at hts
    rw [h] at hts
    exact hts
  calc s.reverse.dropWhile isWs
      = ((s.reverse.dropWhile isWs).reverse).reverse := by simp
    _ = s.reverse := by rw [h2]

theorem trimStr_head_not_ws (s : Str) (hts : trimStr s = s) (c : Char)
    (hc : s.head? = some c) : isWs c = false :=
  dropWhile_eq_self_head isWs s (trimStr_dropWhile_left s hts) c hc

theorem trimStr_last_not_ws (s : Str) (hts : trimStr s = s) (c : Char)
    (hc : s.getLast? = some c) : isWs c = false := by
  apply dropWhile_eq_self_head isWs s.reverse (trimStr_dropWhile_right s hts) c
  rw [List.head?_reverse]
  exact hc

theorem trimStr_append_newline (b : Str) (hb : b ≠ []) (hts : trimStr b = b) :
    trimStr (b ++ ['\n']) = b := by
  unfold trimStr
  have hd : (b ++ ['\n']).dropWhile isWs = b ++ ['\n'] := by
    apply dropWhile_eq_self_of_head
    intro c hc
    apply trimStr_head_not_ws b hts c
    cases b with
    | nil => exact absurd rfl hb
    | cons a as => simpa using hc
  rw [hd, List.reverse_append]
  have hrev : (['\n'] : Str).reverse ++ b.reverse = '\n' :: b.reverse := rfl
  rw [hrev, List.dropWhile_cons_of_pos (by rfl),
    trimStr_dropWhile_right b hts]
  simp

theorem noDoubleNewline_tail (a : Char) (s : Str)
    (h : noDoubleNewline (a :: s) = true) : noDoubleNewline s = true := by
  cases s with
  | nil => rfl
  | cons b t =>
    simp only [noDoubleNewline, Bool.and_eq_true] at h
    exact h.2

theorem noDoubleNewline_pair (b : Char) (t : Str)
    (h : noDoubleNewline ('\n' :: b :: t) = true) : b ≠ '\n' := by
  simp only [noDoubleNewline, Bool.and_eq_true] at h
  intro hb
  subst hb
  simp at h

theorem block_head_ne_nl (b : Str) (hts : trimStr b = b) :
    ∀ c, b.head? = some c → c ≠ '\n' := by
  intro c hc he
  subst he
  exact absurd (trimStr_head_not_ws b hts '\n' hc) (by decide)

theorem block_last_ne_nl (b : Str) (hts : trimStr b = b) :
    ∀ c, b.getLast? = some c → c ≠ '\n' := by
  intro c hc he
  subst he
  exact absurd (trimStr_last_not_ws b hts '\n' hc) (by decide)

theorem splitNl_lines_ne_nil_aux : ∀ (n : Nat) (b : Str), b.length ≤ n →
    b ≠ [] →
    (∀ c, b.head? = some c → c ≠ '\n') →
    (∀ c, b.getLast? = some c → c ≠ '\n') →
    noDoubleNewline b = true →
    ∀ l ∈ splitNl b, l ≠ [] := by
  intro n
  induction n with
  | zero =>
    intro b hlen hne _ _ _
    cases b with
    | nil => exact absurd rfl hne
    | cons a as => simp at hlen
  | succ n ih =>
    intro b hlen hne hhead hlast hnn
    cases b with
    | nil => exact absurd rfl hne
    | cons c cs =>
      have hc : c ≠ '\n' := hhead c rfl
      cases cs with
      | nil =>
        intro l hl
        have : splitNl [c] = [[c]] :=
          splitNl_cons_of_ne c [] hc [] [] rfl
        rw [this] at hl
        simp only [List.mem_singleton] at hl
        simp [hl]
      | cons d ds =>
        by_cases hd : d = '\n'
        · subst hd
          -- splitNl (c :: '\n' :: ds) = [c] :: splitNl ds
          have hsp : splitNl ('\n' :: ds) = [] :: splitNl ds :=
            splitNl_newline_cons ds
          rw [splitNl_cons_of_ne c _ hc [] (splitNl ds) hsp]
          have hds : ds ≠ [] := by
            intro hds0
            subst hds0
            exact hlast '\n' rfl rfl
          have hrest : ∀ l ∈ splitNl ds, l ≠ [] := by
            refine ih ds (by simp at hlen; omega) hds ?_ ?_ ?_
            · intro e he
              cases ds with
              | nil => exact absurd rfl hds
              | cons e0 es =>
                have he0 : e0 = e := by simpa using he
                subst he0
                exact noDoubleNewline_pair e0 es (noDoubleNewline_tail c _ hnn)
            · intro e he
              apply hlast e
              cases ds with
              | nil => exact absurd rfl hds
              | cons e0 es =>
                rw [List.getLast?_cons_cons, List.getLast?_cons_cons]
                exact he
            · exact noDoubleNewline_tail '\n' ds
                (noDoubleNewline_tail c _ hnn)
          intro l hl
          rcases List.mem_cons.mp hl with h1 | h2
          · simp [h1]
          · exact hrest l h2
        · -- d ≠ '\n' : recurse on cs = d :: ds
          have hcs : ∀ l ∈ splitNl (d :: ds), l ≠ [] := by
            refine ih (d :: ds) (by simp at hlen ⊢; omega) (by simp) ?_ ?_ ?_
            · intro e he
              have hde : d = e := by simpa using he
              subst hde
              exact hd
            · intro e he
              apply hlast e
              rwa [List.getLast?_cons_cons]
            · exact noDoubleNewline_tail c _ hnn
          cases hsp : splitNl (d :: ds) with
          | nil => exact absurd hsp (splitNl_ne_nil _)
          | cons g gs =>
            rw [splitNl_cons_of_ne c _ hc g gs hsp]
            intro l hl
            rcases List.mem_cons.mp hl with h1 | h2
            · simp [h1]
            · exact hcs l (by rw [hsp]; exact List.mem_cons_of_mem g h2)

theorem splitNl_lines_ne_nil (b : Str) (hne : b ≠ [])
    (hts : trimStr b = b) (hnn : noDoubleNewline b = true) :
    ∀ l ∈ splitNl b, l ≠ [] :=
  splitNl_lines_ne_nil_aux b.length b le_rfl hne
    (block_head_ne_nl b hts) (block_last_ne_nl b hts) hnn

theorem groupLines_final (ls : List Str) (acc : List Str)
    (hne : ls ≠ []) (hall : ∀ l ∈ ls, l ≠ []) :
    groupLines acc ls = [trimStr (joinNl (acc ++ ls))] := by
  induction ls generalizing acc with
  | nil => exact absurd rfl hne
  | cons l ls ih =>
    cases ls with
    | nil => simp [groupLines]
    | cons a as =>
      have hl : l ≠ [] := hall l (by simp)
      rw [groupLines]
      rw [if_neg (by simp [hl])]
      rw [ih (acc ++ [l]) (by simp) (fun x hx => hall x (by simp [hx]))]
      simp

theorem groupLines_block_sep (ls L acc : List Str)
    (hall : ∀ l ∈ ls, l ≠ []) (hL : L ≠ [])
    (hbc : trimStr (joinNl (acc ++ ls ++ [[]])) ≠ []) :
    groupLines acc (ls ++ [] :: L) =
      trimStr (joinNl (acc ++ ls ++ [[]])) :: groupLines [] L := by
  induction ls generalizing acc with
  | nil =>
    have hLne : L.isEmpty = false := by
      simpa [List.isEmpty_iff] using hL
    simp only [List.append_nil, List.nil_append] at hbc ⊢
    rw [groupLines]
    rw [if_pos (by simp)]
    rw [if_pos (by simp [hbc])]
    simp
  | cons l ls ih =>
    have hl : l ≠ [] := hall l (by simp)
    rw [List.cons_append, groupLines]
    rw [if_neg (by simp [hl])]
    have hbc' :
        trimStr (joinNl ((acc ++ [l]) ++ ls ++ [[]])) ≠ [] := by
      simpa [List.append_assoc] using hbc
    rw [ih (acc ++ [l]) (fun x hx => hall x (by simp [hx])) hbc']
    simp [List.append_assoc]

theorem groupLines_serialize (bs : List Str) (hne : bs ≠ [])
    (htrim : ∀ b ∈ bs, trimStr b = b)
    (hnn : ∀ b ∈ bs, noDoubleNewline b = true)
    (hnf : nonFinalNonempty bs = true) :
    groupLines [] (splitNl (serialize bs)) = bs := by
  induction bs with
  | nil => exact absurd rfl hne
  | cons b bs ih =>
    cases bs with
    | nil =>
      by_cases hb : b = []
      · subst hb
        decide
      · have hts := htrim b (by simp)
        have hlines := splitNl_lines_ne_nil b hb hts (hnn b (by simp))
        have hser : serialize [b] = b := rfl
        rw [hser, groupLines_final (splitNl b) [] (splitNl_ne_nil b) hlines,
          List.nil_append, joinNl_splitNl, hts]
    | cons b' bs' =>
      have hb : b ≠ [] := by
        simp only [nonFinalNonempty, Bool.and_eq_true] at hnf
        simpa [List.isEmpty_iff] using hnf.1
      have hts := htrim b (by simp)
      have hser : serialize (b :: b' :: bs') =
          b ++ '\n' :: '\n' :: serialize (b' :: bs') := rfl
      rw [hser, splitNl_append, splitNl_newline_cons]
      have hlines := splitNl_lines_ne_nil b hb hts (hnn b (by simp))
      have hbc : trimStr (joinNl ([] ++ splitNl b ++ [[]])) = b := by
        rw [List.nil_append,
          joinNl_append_last _ _ (splitNl_ne_nil b), joinNl_splitNl]
        exact trimStr_append_newline b hb hts
      rw [groupLines_block_sep (splitNl b) (splitNl (serialize (b' :: bs')))
        [] hlines (splitNl_ne_nil _) (by rw [hbc]; exact hb)]
      rw [hbc]
      congr 1
      refine ih (by simp) (fun x hx => htrim x (by simp [hx]))
        (fun x hx => hnn x (by simp [hx])) ?_
      simp only [nonFinalNonempty, Bool.and_eq_true] at hnf
      exact hnf.2

/-- Claim C2 as stated is false: the document with blocks ["", "a"]
has no leading/trailing whitespace and no two consecutive newlines in
any block, yet the round trip drops the non-final empty block. -/
theorem round_trip_counterexample :
    (∀ b ∈ [([] : Str), ['a']], trimStr b = b)
    ∧ (∀ b ∈ [([] : Str), ['a']], noDoubleNewline b = true)
    ∧ deserialize (serialize [([] : Str), ['a']]) ≠ [([] : Str), ['a']] := by
  refine ⟨?_, ?_, ?_⟩ <;> decide

/-- Claim C2 (amended): for every document whose blocks have no
leading or trailing whitespace and no two consecutive newline
characters, and in which every block except possibly the last is
non-empty, deserializing the serialization reproduces the block
contents exactly. -/
theorem deserialize_serialize_round_trip (bs : List Str) (hne : bs ≠ [])
    (htrim : ∀ b ∈ bs, trimStr b = b)
    (hnn : ∀ b ∈ bs, noDoubleNewline b = true)
    (hnf : nonFinalNonempty bs = true) :
    deserialize (serialize bs) = bs := by
  have h := groupLines_serialize bs hne htrim hnn hnf
  simp only [deserialize, h]
  simp [List.isEmpty_iff, hne]

/-- Witness for the amended claim C2 at the document
["line one\nline two", "hi", ""]. -/
theorem deserialize_serialize_round_trip_witness :
    deserialize (serialize [str "line one\nline two", str "hi", []]) =
      [str "line one\nline two", str "hi", []] :=
  deserialize_serialize_round_trip [str "line one\nline two", str "hi", []]
    (by decide) (by decide) (by decide) (by decide)

end MonoNote
